import Mathlib

/-!
Verification development for the MEGA folder-link resolution and decryption
engine (`mega_monitor/mega_client.py`).

The Python module is shallowly embedded: pure functions become Lean functions,
machine bytes and 32-bit words are `Nat` with explicit bounds where they
matter, and fallible code (Python exceptions) returns `Option`/`Except`.
External library primitives that the module merely calls — the AES block
cipher from pycryptodome and `json.loads` — are passed in as explicit
function parameters, so every theorem quantifies over them.
-/

namespace MegaMonitor

/-! ### Bytes and big-endian 32-bit words -/

/-- Model of Python `x.to_bytes(4, "big")` (used in `decrypt_key` line 106/107 and
`decrypt_attr` line 116): the four big-endian bytes of a 32-bit word.  Python raises
`OverflowError` when `x ≥ 2^32`, hence the `Option`. -/
def intToBytes4 (x : ℕ) : Option (List ℕ) :=
  if x < 2 ^ 32 then
    some [x / 2 ^ 24 % 256, x / 2 ^ 16 % 256, x / 2 ^ 8 % 256, x % 256]
  else none

/-- Model of `b"".join(x.to_bytes(4, "big") for x in words)`. -/
def wordsToBytes (ws : List ℕ) : Option (List ℕ) :=
  (ws.mapM intToBytes4).map List.flatten

/-- Worker for `chunksOf`; every step consumes at least one element, so fuel equal
to the length of the input makes this total. -/
def chunksGo (k : ℕ) : ℕ → List α → List (List α)
  | 0, _ => []
  | _ + 1, [] => []
  | fuel + 1, a :: rest => (a :: rest.take (k - 1)) :: chunksGo k fuel (rest.drop (k - 1))

/-- Splits a list into consecutive chunks of length `k` (the last chunk may be
shorter), as Python's `range(0, len(raw), k)` slicing does. -/
def chunksOf (k : ℕ) (l : List α) : List (List α) := chunksGo k l.length l

/-- Model of `int.from_bytes(bs, "big")`. -/
def beNat (bs : List ℕ) : ℕ := bs.foldl (fun acc b => acc * 256 + b) 0

/-- Model of `tuple(int.from_bytes(raw[i:i+4], "big") for i in range(0, len(raw), 4))`
(`base64_to_a32`, line 100): big-endian 32-bit words; a short final chunk yields a
smaller integer, exactly as `int.from_bytes` does. -/
def bytesToWords (bs : List ℕ) : List ℕ := (chunksOf 4 bs).map beNat

/-! ### Base64 (URL-safe, padding-tolerant) -/

/-- Value of one base64 character after `urlsafe_b64decode`'s `-_ → +/` translation;
`none` for characters outside the alphabet (Python's lenient decoder discards them). -/
def b64Value (c : Char) : Option ℕ :=
  if 'A' ≤ c ∧ c ≤ 'Z' then some (c.toNat - 65)
  else if 'a' ≤ c ∧ c ≤ 'z' then some (c.toNat - 71)
  else if '0' ≤ c ∧ c ≤ '9' then some (c.toNat + 4)
  else if c = '-' ∨ c = '+' then some 62
  else if c = '_' ∨ c = '/' then some 63
  else none

/-- Packs 6-bit base64 values into bytes: each full quad gives 3 bytes, a trailing
pair or triple gives 1 or 2 bytes (trailing bits are dropped, as `a2b_base64` does). -/
def b64Bytes : List ℕ → List ℕ
  | a :: b :: c :: d :: rest =>
      (a * 4 + b / 16) :: (b % 16 * 16 + c / 4) :: (c % 4 * 64 + d) :: b64Bytes rest
  | [a, b] => [a * 4 + b / 16]
  | [a, b, c] => [a * 4 + b / 16, b % 16 * 16 + c / 4]
  | _ => []

/-- Model of `base64_url_decode` (`mega_client.py` lines 93-95): pad with `=` to a
multiple of 4, then `base64.urlsafe_b64decode`.  For input over the base64url
alphabet this is exact: padding makes every length decodable except
`len % 4 == 1`, where Python's decoder raises (data characters cannot be 1 more
than a multiple of 4).  Non-alphabet characters are discarded, as by Python's
lenient decoder. -/
def base64_url_decode (data : String) : Option (List ℕ) :=
  let vals := data.toList.filterMap b64Value
  if vals.length % 4 = 1 then none else some (b64Bytes vals)

/-- Model of `base64_to_a32` (lines 98-100): base64url-decode, then interpret as
big-endian 32-bit words. -/
def base64_to_a32 (data : String) : Option (List ℕ) :=
  (base64_url_decode data).map bytesToWords

/-- Model of Python `str.split(sep)` for a one-character separator: splitting the
empty string gives `[""]`, and every separator occurrence starts a new segment. -/
def pySplit (sep : Char) : List Char → List (List Char)
  | [] => [[]]
  | c :: rest =>
    if c = sep then [] :: pySplit sep rest
    else
      match pySplit sep rest with
      | g :: gs => (c :: g) :: gs
      | [] => [[c]]

/-! ### AES block-cipher modes

The module uses pycryptodome's `AES.new(key, MODE_ECB)` / `AES.new(key, MODE_CBC, iv)`
and calls `.decrypt` on whole buffers.  The AES block primitive itself is an external
library function; it enters the embedding as an explicit parameter
`blockDec : List ℕ → List ℕ → List ℕ` (key bytes, 16-byte ciphertext block ↦
plaintext block), and every theorem quantifies over it. -/

/-- Model of `AES.new(key, AES.MODE_ECB).decrypt(ct)`: `AES.new` raises unless the key
is 16, 24 or 32 bytes; `.decrypt` raises unless the data is a multiple of 16 bytes;
otherwise each 16-byte block is decrypted independently. -/
def aesEcbDecrypt (blockDec : List ℕ → List ℕ → List ℕ) (key ct : List ℕ) :
    Option (List ℕ) :=
  if (key.length = 16 ∨ key.length = 24 ∨ key.length = 32) ∧ ct.length % 16 = 0 then
    some (((chunksOf 16 ct).map (blockDec key)).flatten)
  else none

/-- CBC chaining for decryption: plaintext block i is `blockDec key ctᵢ` XORed
bytewise with the previous ciphertext block (the IV for the first block). -/
def cbcChain (blockDec : List ℕ → List ℕ → List ℕ) (key : List ℕ) :
    List ℕ → List (List ℕ) → List ℕ
  | _, [] => []
  | prev, b :: rest =>
      (List.zipWith (fun x y => x ^^^ y) (blockDec key b) prev) ++
        cbcChain blockDec key b rest

/-- Model of `AES.new(key, AES.MODE_CBC, iv=iv).decrypt(ct)`, with the same key-size
and block-alignment requirements as ECB. -/
def aesCbcDecrypt (blockDec : List ℕ → List ℕ → List ℕ) (key iv ct : List ℕ) :
    Option (List ℕ) :=
  if (key.length = 16 ∨ key.length = 24 ∨ key.length = 32) ∧ ct.length % 16 = 0 then
    some (cbcChain blockDec key iv (chunksOf 16 ct))
  else none

/-- Embedding of `decrypt_key` (lines 103-112): serialize the shared key and the
cipher words to big-endian bytes, AES-ECB-decrypt, and read the plaintext back as
big-endian 32-bit words. -/
def decrypt_key (blockDec : List ℕ → List ℕ → List ℕ) (cipher shared_key : List ℕ) :
    Option (List ℕ) := do
  let key_bytes ← wordsToBytes shared_key
  let cipher_bytes ← wordsToBytes cipher
  let plain ← aesEcbDecrypt blockDec key_bytes cipher_bytes
  return bytesToWords plain

/-! ### Text helpers (Python `bytes`/`str` operations)

Decoded text is represented as a list of Unicode code points. -/

/-- Model of `bytes.rstrip(b"\x5c0")`: drop trailing zero bytes. -/
def rstripZeros (bs : List ℕ) : List ℕ :=
  (bs.reverse.dropWhile (fun b => b = 0)).reverse

/-- Validity of the second byte of a multi-byte UTF-8 sequence with lead byte `b`
(the E0/ED and F0/F4 lead bytes constrain it beyond the generic 80..BF range). -/
def utf8Cont2 (b b2 : ℕ) : Bool :=
  if b = 0xE0 then 0xA0 ≤ b2 ∧ b2 ≤ 0xBF
  else if b = 0xED then 0x80 ≤ b2 ∧ b2 ≤ 0x9F
  else if b = 0xF0 then 0x90 ≤ b2 ∧ b2 ≤ 0xBF
  else if b = 0xF4 then 0x80 ≤ b2 ∧ b2 ≤ 0x8F
  else decide (0x80 ≤ b2 ∧ b2 ≤ 0xBF)

/-- Worker for `utf8DecodeIgnore`; every step consumes at least one byte, so fuel
equal to the length of the input makes this total. -/
def utf8Go : ℕ → List ℕ → List ℕ
  | 0, _ => []
  | _ + 1, [] => []
  | fuel + 1, b :: rest =>
    if b < 0x80 then b :: utf8Go fuel rest
    else if 0xC2 ≤ b ∧ b ≤ 0xDF then
      match rest with
      | b2 :: rest2 =>
        if 0x80 ≤ b2 ∧ b2 ≤ 0xBF then
          ((b - 0xC0) * 64 + (b2 - 0x80)) :: utf8Go fuel rest2
        else utf8Go fuel rest
      | [] => []
    else if 0xE0 ≤ b ∧ b ≤ 0xEF then
      match rest with
      | b2 :: rest2 =>
        if utf8Cont2 b b2 then
          match rest2 with
          | b3 :: rest3 =>
            if 0x80 ≤ b3 ∧ b3 ≤ 0xBF then
              ((b - 0xE0) * 4096 + (b2 - 0x80) * 64 + (b3 - 0x80)) :: utf8Go fuel rest3
            else utf8Go fuel rest2
          | [] => []
        else utf8Go fuel rest
      | [] => []
    else if 0xF0 ≤ b ∧ b ≤ 0xF4 then
      match rest with
      | b2 :: rest2 =>
        if utf8Cont2 b b2 then
          match rest2 with
          | b3 :: rest3 =>
            if 0x80 ≤ b3 ∧ b3 ≤ 0xBF then
              match rest3 with
              | b4 :: rest4 =>
                if 0x80 ≤ b4 ∧ b4 ≤ 0xBF then
                  ((b - 0xF0) * 262144 + (b2 - 0x80) * 4096 + (b3 - 0x80) * 64 +
                      (b4 - 0x80)) :: utf8Go fuel rest4
                else utf8Go fuel rest3
              | [] => []
            else utf8Go fuel rest2
          | [] => []
        else utf8Go fuel rest
      | [] => []
    else utf8Go fuel rest

/-- Model of `bytes.decode("utf-8", errors="ignore")`: decode UTF-8 to a list of
code points, dropping the bytes of any invalid sequence (Python skips the maximal
subpart of an invalid sequence and re-examines the next byte). -/
def utf8DecodeIgnore (bs : List ℕ) : List ℕ := utf8Go bs.length bs

/-- Model of `str.find(c)`: index of the first occurrence, `-1` if absent. -/
def pyFind (text : List ℕ) (c : ℕ) : ℤ :=
  match text.findIdx? (fun x => x = c) with
  | some i => (i : ℤ)
  | none => -1

/-- Model of `str.rfind(c)`: index of the last occurrence, `-1` if absent. -/
def pyRfind (text : List ℕ) (c : ℕ) : ℤ :=
  match text.reverse.findIdx? (fun x => x = c) with
  | some i => (text.length : ℤ) - 1 - (i : ℤ)
  | none => -1

/-- Model of the Python slice `l[a:b]`: negative indices count from the end and
both bounds are clamped to `[0, len]`. -/
def pySlice (l : List α) (a b : ℤ) : List α :=
  let norm : ℤ → ℕ := fun x => if x < 0 then ((l.length : ℤ) + x).toNat else min x.toNat l.length
  (l.take (norm b)).drop (norm a)

/-! ### Decoded JSON values (Python objects produced by `json.loads` / `resp.json()`) -/

/-- Python value resulting from decoding JSON: `int`, `bool` (a subtype of `int` in
Python, so `isinstance(x, int)` is true for it), `float` (only its non-int-ness
matters here, so the payload is dropped), `None`, `str`, `list`, `dict`. -/
inductive PVal where
  | pint (n : ℤ)
  | pbool (b : Bool)
  | pfloat
  | pnull
  | pstr (s : String)
  | plist (xs : List PVal)
  | pdict (kvs : List (String × PVal))

/-- Model of Python `isinstance(v, int)`: true for `int` and for `bool`, which is a
subclass of `int`. -/
def pvIsInt : PVal → Bool
  | .pint _ => true
  | .pbool _ => true
  | _ => false

/-- Integer value of an `isinstance(_, int)` Python value (`True == 1`, `False == 0`). -/
def pvToInt : PVal → ℤ
  | .pint n => n
  | .pbool b => if b then 1 else 0
  | _ => 0

/-- Model of `dict.get(k)` on a dict decoded from JSON: duplicate keys in the JSON
text resolve to the last binding, so lookup scans from the end. -/
def pyDictGet (kvs : List (String × PVal)) (k : String) : Option PVal :=
  (kvs.reverse.find? (fun p => p.1 == k)).map (·.2)

/-! ### Attribute decryption -/

/-- The AES key bytes used by `decrypt_attr` (line 116): the first four 32-bit words
of the node key, serialized big-endian. -/
def attr_aes_key (key : List ℕ) : Option (List ℕ) :=
  wordsToBytes (key.take 4)

/-- Embedding of `decrypt_attr` (lines 115-121).  `attr_bytes` is the already
base64-decoded blob; `jsonLoads` is the external `json.loads` parser, modelled as a
function from the text (code points) to an optional JSON object (it fails on any
text that is not a valid JSON object, in particular on the empty string).  The IV
passed to AES-CBC is the all-zero 16-byte string from line 117. -/
def decrypt_attr (blockDec : List ℕ → List ℕ → List ℕ)
    (jsonLoads : List ℕ → Option (List (String × PVal)))
    (attr_bytes : List ℕ) (key : List ℕ) : Option (List (String × PVal)) := do
  let aes_key ← attr_aes_key key
  let decrypted ← aesCbcDecrypt blockDec aes_key (List.replicate 16 0) attr_bytes
  let text := utf8DecodeIgnore (rstripZeros decrypted)
  let json_part := pySlice text (pyFind text 123) (pyRfind text 125 + 1)
  jsonLoads json_part

/-! ### Node decryption -/

/-- Raw node dict as received from the listing API (spec section 6): handle `h`,
parent handle `p`, type `t`, key field `k`, optional attribute blob `a`, optional
size `s`.  `decrypt_node` subscripts `h`, `p`, `t` and `k` directly and uses
`.get` with a default for `a` and `s`. -/
structure RawNode where
  h : String
  p : String
  t : ℤ
  k : String
  a : Option String
  s : Option ℤ
deriving DecidableEq

/-- Decrypted node as returned by `decrypt_node` (lines 172-178).  `name` is
`attrs.get("n")`, which is `None` when the decrypted attribute object has no
`n` key. -/
structure DecNode where
  h : String
  p : String
  name : Option PVal
  type : ℤ
  size : ℤ

/-- The file-key fold from line 170: `tuple(key[i] ^ key[i+4] for i in range(4))`.
Python raises `IndexError` when the decrypted key has fewer than 8 words. -/
def fold_file_key : List ℕ → Option (List ℕ)
  | k0 :: k1 :: k2 :: k3 :: k4 :: k5 :: k6 :: k7 :: _ =>
      some [k0 ^^^ k4, k1 ^^^ k5, k2 ^^^ k6, k3 ^^^ k7]
  | _ => none

/-- Embedding of `decrypt_node` (lines 166-178): take the last `:`-separated segment
of the key field, base64-decode it to 32-bit words, AES-ECB-unwrap with the shared
folder key, fold when the node is a file (`t == 0`), then decrypt the attribute blob
with the resulting key and assemble the output dict. -/
def decrypt_node (blockDec : List ℕ → List ℕ → List ℕ)
    (jsonLoads : List ℕ → Option (List (String × PVal)))
    (node : RawNode) (shared_key : List ℕ) : Option DecNode := do
  let enc := String.mk ((pySplit ':' node.k.toList).getLastD [])
  let cipher ← base64_to_a32 enc
  let key0 ← decrypt_key blockDec cipher shared_key
  let key ← if node.t = 0 then fold_file_key key0 else some key0
  let ab ← base64_url_decode (node.a.getD "")
  let attrs ← decrypt_attr blockDec jsonLoads ab key
  return { h := node.h, p := node.p, name := pyDictGet attrs "n",
           type := node.t, size := node.s.getD 0 }

/-! ### Listing-response classification (`get_nodes`, lines 124-163)

The HTTP round trip itself (`requests.post`, `raise_for_status`, `resp.json()`)
is external; the embedding covers the classification of the decoded JSON body. -/

/-- Embedding of the module-level `_ERROR_MAP` dict (lines 32-42) read through
`.get(code, "Unknown error")` (line 140). -/
def _ERROR_MAP_get (code : ℤ) : String :=
  if code = -2 then "EARGS: Invalid arguments"
  else if code = -3 then "EAGAIN: Try again (temporary)"
  else if code = -4 then "ERATELIMIT: Rate limited"
  else if code = -9 then "ENOENT: Folder/file not found (removed or never existed)"
  else if code = -11 then "EACCESS: Access denied (permission revoked)"
  else if code = -14 then "EKEY: Invalid decryption key"
  else if code = -16 then "EBLOCKED: Access blocked/banned"
  else if code = -17 then "EOVERQUOTA: Quota exceeded"
  else if code = -18 then "ETEMPUNAVAIL: Temporarily unavailable"
  else "Unknown error"

/-- Approximate model of Python `repr` for decoded JSON values; it only feeds the
human-readable text of two error messages, which no claim constrains, so string
escaping and float rendering are simplified. -/
def pvRepr : PVal → String
  | .pint n => toString n
  | .pbool b => if b then "True" else "False"
  | .pfloat => "float"
  | .pnull => "None"
  | .pstr s => s
  | .plist _ => "list"
  | .pdict _ => "dict"

/-- The `MegaAPIError` raised by `get_nodes`, kept structured: `raised c` is a
`_raise(c)` call (message from `_ERROR_MAP`); the other variants are the explicit
`MegaAPIError(-1, ...)` raises at lines 148, 157, 159 and 161. -/
inductive ApiError where
  | raised (code : ℤ)
  | emptyResponse
  | malformedF
  | unexpectedObject (first : PVal)
  | unexpectedType (payload : PVal)

/-- The `code` attribute of the raised `MegaAPIError`. -/
def ApiError.errCode : ApiError → ℤ
  | .raised c => c
  | _ => -1

/-- The `message` attribute of the raised `MegaAPIError`. -/
def ApiError.errMsg : ApiError → String
  | .raised c => _ERROR_MAP_get c
  | .emptyResponse => "Empty MEGA response"
  | .malformedF => "Malformed f field"
  | .unexpectedObject first => "Unexpected MEGA response object: " ++ pvRepr first
  | .unexpectedType payload => "Unexpected MEGA response type: " ++ pvRepr payload

/-- Embedding of the response-body classification in `get_nodes` (lines 143-163),
applied to the decoded JSON body.  Follows the source order exactly: bare int,
then list (empty / first-element int / object with int `e` / object with `f` /
other first element), then any other top-level shape. -/
def get_nodes_classify (payload : PVal) : Except ApiError (List PVal) :=
  if pvIsInt payload then .error (.raised (pvToInt payload))
  else match payload with
    | .plist [] => .error .emptyResponse
    | .plist (first :: _) =>
      if pvIsInt first then .error (.raised (pvToInt first))
      else match first with
        | .pdict kvs =>
          match pyDictGet kvs "e" with
          | some e =>
            if pvIsInt e then .error (.raised (pvToInt e))
            else if (pyDictGet kvs "f").isSome then
              match pyDictGet kvs "f" with
              | some (.plist f) => .ok f
              | _ => .error .malformedF
            else .error (.unexpectedObject first)
          | none =>
            if (pyDictGet kvs "f").isSome then
              match pyDictGet kvs "f" with
              | some (.plist f) => .ok f
              | _ => .error .malformedF
            else .error (.unexpectedObject first)
        | _ => .error (.unexpectedObject first)
    | _ => .error (.unexpectedType payload)

/-! ### Folder-URL parsing (`parse_folder_url`, lines 82-90)

The two regular expressions are modelled directly.  For these patterns,
`re.search` semantics reduce to: try every start position left to right; at a
given start the literal `mega.` must match, `[^/]+` must be the (non-empty) run
up to the first following `/` (the next literal starts with `/`, which the class
cannot consume), and each `[0-9A-Za-z_-]+` group is the maximal alphabet run,
necessarily followed by the next literal (`#` or `!`), which is outside the
class. -/

/-- Character class `[0-9A-Za-z_-]` (the URL-safe base64 alphabet). -/
def isB64UrlChar (c : Char) : Bool :=
  ('0' ≤ c ∧ c ≤ '9') ∨ ('A' ≤ c ∧ c ≤ 'Z') ∨ ('a' ≤ c ∧ c ≤ 'z') ∨ c = '_' ∨ c = '-'

/-- Consumes the literal `lit` from the front of `cs`, or fails. -/
def dropLit : List Char → List Char → Option (List Char)
  | [], cs => some cs
  | _ :: _, [] => none
  | l :: ls, c :: cs => if c = l then dropLit ls cs else none

/-- Match of `mega\.[^/]+/folder/([0-9A-Za-z_-]+)#([0-9A-Za-z_-]+)` anchored at the
head of `cs`, returning the two groups. -/
def tryMatchFolderAt (cs : List Char) : Option (String × String) := do
  let r1 ← dropLit "mega.".toList cs
  let host := r1.takeWhile (fun c => c ≠ '/')
  if host.isEmpty then none else do
  let r2 ← dropLit "/folder/".toList (r1.drop host.length)
  let g1 := r2.takeWhile isB64UrlChar
  if g1.isEmpty then none else do
  let r3 ← dropLit ['#'] (r2.drop g1.length)
  let g2 := r3.takeWhile isB64UrlChar
  if g2.isEmpty then none else
  some (String.mk g1, String.mk g2)

/-- Match of the legacy `mega\.[^/]+/#F!([0-9A-Za-z_-]+)!([0-9A-Za-z_-]+)` anchored
at the head of `cs`. -/
def tryMatchLegacyAt (cs : List Char) : Option (String × String) := do
  let r1 ← dropLit "mega.".toList cs
  let host := r1.takeWhile (fun c => c ≠ '/')
  if host.isEmpty then none else do
  let r2 ← dropLit "/#F!".toList (r1.drop host.length)
  let g1 := r2.takeWhile isB64UrlChar
  if g1.isEmpty then none else do
  let r3 ← dropLit ['!'] (r2.drop g1.length)
  let g2 := r3.takeWhile isB64UrlChar
  if g2.isEmpty then none else
  some (String.mk g1, String.mk g2)

/-- Model of `re.search`: leftmost start position at which the anchored matcher
succeeds. -/
def reSearch (tryAt : List Char → Option (String × String)) :
    List Char → Option (String × String)
  | [] => tryAt []
  | c :: rest =>
    match tryAt (c :: rest) with
    | some r => some r
    | none => reSearch tryAt rest

/-- Python exception surfaced by `parse_folder_url`; the message text is a model. -/
inductive PyExc where
  | valueError (msg : String)
  | attributeError (msg : String)
deriving DecidableEq

/-- Embedding of `parse_folder_url` (lines 82-90).  When the first pattern fails,
the second is tried; when that also fails, line 87 formats
`match.group(1)` with `match = None` for a debug log, which raises
`AttributeError` before the `raise ValueError` on line 89 can run — so the
`ValueError` branch is unreachable. -/
def parse_folder_url (url : String) : Except PyExc (String × String) :=
  match reSearch tryMatchFolderAt url.toList with
  | some rk => .ok rk
  | none =>
    match reSearch tryMatchLegacyAt url.toList with
    | some rk => .ok rk
    | none => .error (.attributeError "NoneType object has no attribute group")

/-! ### Link validation (`get_mega_links`, lines 53-75)

The environment is passed as an ordered list of `(key, value)` pairs, and the
outcome of the network call inside `get_nodes` as a function `http` from root
handle to either the decoded JSON body or the string rendering of the transport
exception (`raise_for_status` / JSON decode failures re-raised at line 137). -/

/-- A diagnostic record for a link that failed validation (lines 19-24). -/
structure InvalidLinkReport where
  name : String
  url : String
  code : ℤ
  reason : String
deriving DecidableEq

/-- Failure of one `get_nodes` call as observed by `get_mega_links`: a
`MegaAPIError`, or any other exception carried as its string rendering. -/
inductive LinkErr where
  | api (e : ApiError)
  | exc (desc : String)

/-- The `get_nodes` call as seen from `get_mega_links`: transport outcome composed
with the response classification. -/
def getNodesRun (http : String → Except String PVal) (root : String) :
    Except LinkErr (List PVal) :=
  match http root with
  | .error d => .error (.exc d)
  | .ok payload =>
    match get_nodes_classify payload with
    | .error e => .error (.api e)
    | .ok f => .ok f

/-- String rendering of a `PyExc`, as `str(e)` would produce. -/
def pyExcStr : PyExc → String
  | .valueError m => m
  | .attributeError m => m

/-- Embedding of the loop body of `get_mega_links` for one environment entry whose
key starts with `MEGA_LINK_`: parse the URL, call `get_nodes`, and classify the
outcome as a valid `(name, url)` entry or an `InvalidLinkReport` (`code = e.code`
for `MegaAPIError`, `code = -1` for every other exception). -/
def processLink (http : String → Except String PVal) (name url : String) :
    (String × String) ⊕ InvalidLinkReport :=
  match parse_folder_url url with
  | .error e => .inr ⟨name, url, -1, pyExcStr e⟩
  | .ok (root, _) =>
    match getNodesRun http root with
    | .ok _ => .inl (name, url)
    | .error (.api e) => .inr ⟨name, url, e.errCode, e.errMsg⟩
    | .error (.exc d) => .inr ⟨name, url, -1, d⟩

/-- Loop of `get_mega_links` with its two accumulators. -/
def get_mega_links_go (http : String → Except String PVal) :
    List (String × String) → List (String × String) → List InvalidLinkReport →
    Except (List InvalidLinkReport) (List (String × String))
  | [], valid, invalid => if valid.isEmpty then .error invalid else .ok valid
  | (key, url) :: env, valid, invalid =>
    if key.startsWith "MEGA_LINK_" then
      let name := key.drop "MEGA_LINK_".length
      match processLink http name url with
      | .inl v => get_mega_links_go http env (valid ++ [v]) invalid
      | .inr r => get_mega_links_go http env valid (invalid ++ [r])
    else get_mega_links_go http env valid invalid

/-- Embedding of `get_mega_links` (lines 53-75): iterate over the environment,
validate each `MEGA_LINK_*` entry independently, and raise `NoValidLinksError`
carrying the collected reports when no entry validated. -/
def get_mega_links (http : String → Except String PVal)
    (env : List (String × String)) :
    Except (List InvalidLinkReport) (List (String × String)) :=
  get_mega_links_go http env [] []

/-! ### Path reconstruction (`build_paths`, lines 181-194)

Input nodes are `DecryptedNode`s in the sense of the spec's data model (section 3):
handle, parent handle, name (a string), type, size.  The inner `resolve` recursion
has no cycle guard and diverges on a cyclic parent chain, so it is embedded with a
fuel parameter; `none` models non-termination.  `build_paths` itself runs `resolve`
with fuel `nodes.length + 1`, which the termination theorems show is enough
whenever the parent relation is acyclic, while on a chain that cycles `resolve`
exhausts any amount of fuel. -/

/-- A decrypted node as consumed by `build_paths`. -/
structure PNode where
  h : String
  p : String
  name : String
  type : ℤ
  size : ℤ
deriving DecidableEq

/-- An output entry of `build_paths` (line 191). -/
structure PathEntry where
  h : String
  path : String
  type : ℤ
  size : ℤ
deriving DecidableEq

/-- Model of `lookup = {n["h"]: n for n in nodes}` (line 182) read through
`lookup[h]`: in a dict comprehension a later node with the same handle overwrites
an earlier one, so lookup scans from the end. -/
def lookupOf (nodes : List PNode) (h : String) : Option PNode :=
  nodes.reverse.find? (fun n => n.h == h)

/-- Embedding of the inner `resolve` recursion (lines 184-188) with explicit fuel:
empty path when the handle is the root or absent from the lookup, otherwise the
parent's path joined with the node's name by `/` (or the bare name when the parent
path is empty, via the `if parent` truthiness test). -/
def resolveF (nodes : List PNode) (root : String) : ℕ → String → Option String
  | 0, _ => none
  | fuel + 1, h =>
    if h = root then some ""
    else match lookupOf nodes h with
      | none => some ""
      | some n =>
        (resolveF nodes root fuel n.p).map
          (fun parent => if parent = "" then n.name else parent ++ "/" ++ n.name)

/-- Embedding of `build_paths` (lines 181-194): resolve every node's path and keep
an entry exactly for the nodes whose resolved path is non-empty.  The result is
`none` when some resolution exhausts its fuel (the Python recursion would not
terminate). -/
def build_paths (nodes : List PNode) (root : String) : Option (List PathEntry) :=
  (nodes.mapM (fun n =>
      (resolveF nodes root (nodes.length + 1) n.h).map (fun path => (n, path)))).map
    (fun resolved =>
      (resolved.filter (fun np => np.2 ≠ "")).map
        (fun np => ⟨np.1.h, np.2, np.1.type, np.1.size⟩))

/-- One step of the parent relation inside the lookup: `a` is a handle present in
the lookup and `b` is the parent handle of its node. -/
def parentStep (nodes : List PNode) (a b : String) : Prop :=
  ∃ n, lookupOf nodes a = some n ∧ b = n.p

/-- Acyclicity of the parent relation: no handle is reachable from itself by
repeatedly following parent handles within the lookup. -/
def Acyclic (nodes : List PNode) : Prop :=
  ∀ h, ¬ Relation.TransGen (parentStep nodes) h h

/-- The resolved path of a handle at the fuel used by `build_paths`; the default
`""` is never taken when the parent relation is acyclic. -/
def resolvePath (nodes : List PNode) (root : String) (h : String) : String :=
  (resolveF nodes root (nodes.length + 1) h).getD ""

/-! ### Spec-side definitions

Each definition below follows the wording of the specification (sections 4.2,
4.3, 4.5); the refinement theorems compare them with the embeddings of the
source above. -/

/-- Spec section 4.3, `unwrapNodeKey(keyField, folderKey)`: split on `:`, take the
last segment, base64url-decode (padding-tolerant), interpret as big-endian 32-bit
words, AES-ECB-decrypt with the folder key over the word bytes; for a file
(type 0) fold the 8-word result by `result[i] ^ result[i+4]` for i in 0..3, for a
folder use the result directly. -/
def unwrapNodeKey (blockDec : List ℕ → List ℕ → List ℕ) (keyField : String)
    (folderKey : List ℕ) (nodeType : ℤ) : Option (List ℕ) := do
  let seg := String.mk ((pySplit ':' keyField.toList).getLastD [])
  let bytes ← base64_url_decode seg
  let words := bytesToWords bytes
  let folderKeyBytes ← wordsToBytes folderKey
  let wordBytes ← wordsToBytes words
  let plain ← aesEcbDecrypt blockDec folderKeyBytes wordBytes
  let result := bytesToWords plain
  if nodeType = 0 then
    match result with
    | r0 :: r1 :: r2 :: r3 :: r4 :: r5 :: r6 :: r7 :: _ =>
        some [r0 ^^^ r4, r1 ^^^ r5, r2 ^^^ r6, r3 ^^^ r7]
    | _ => none
  else some result

/-- The integer `e` field of a decoded JSON object, when present (spec section 4.2,
case of a first element that is an object with an integer `e` field). -/
def dictIntE (first : PVal) : Option ℤ :=
  match first with
  | .pdict kvs => (pyDictGet kvs "e").bind (fun e => if pvIsInt e then some (pvToInt e) else none)
  | _ => none

/-- The `f` value of a decoded JSON object, when the key is present. -/
def dictF (first : PVal) : Option PVal :=
  match first with
  | .pdict kvs => pyDictGet kvs "f"
  | _ => none

/-- Spec section 4.2: classification of the decoded listing-response body, with
error codes as the spec enumerates them — a bare integer body is that code; an
empty list is `-1`; a first element that is a bare integer is that code; a first
element with an integer `e` field is that code; a first element containing `f`
succeeds with that value provided it is a list (otherwise `-1`); anything else is
`-1`. -/
def fetchNodesClassify (payload : PVal) : Except ℤ (List PVal) :=
  if pvIsInt payload then .error (pvToInt payload)
  else match payload with
    | .plist [] => .error (-1)
    | .plist (first :: _) =>
      if pvIsInt first then .error (pvToInt first)
      else match dictIntE first with
        | some c => .error c
        | none =>
          match dictF first with
          | some (.plist f) => .ok f
          | some _ => .error (-1)
          | none => .error (-1)
    | _ => .error (-1)

/-- Index of the last occurrence of `c` in `text`, when `c` occurs. -/
def lastIdxOf (text : List ℕ) (c : ℕ) : Option ℕ :=
  (text.reverse.findIdx? (fun x => x = c)).map (fun i => text.length - 1 - i)

/-- Spec section 4.3, `decryptAttributes`: AES-CBC-decrypt with zero IV and the
16-byte key, strip trailing zero bytes, decode as text tolerating invalid byte
sequences, extract the substring from the first `{` (code point 123) to the last
`}` (code point 125) inclusive and parse it as a JSON object; fail when no JSON
object boundary is found or parsing fails. -/
def decryptAttributes (blockDec : List ℕ → List ℕ → List ℕ)
    (jsonLoads : List ℕ → Option (List (String × PVal)))
    (blob : List ℕ) (aesKey : List ℕ) : Option (List (String × PVal)) := do
  let decrypted ← aesCbcDecrypt blockDec aesKey (List.replicate 16 0) blob
  let text := utf8DecodeIgnore (rstripZeros decrypted)
  match text.findIdx? (fun x => x = 123), lastIdxOf text 125 with
  | some i, some j => jsonLoads ((text.take (j + 1)).drop i)
  | _, _ => none

/-- Spec section 4.5, `validateAll`: classify every configured link independently,
partition the outcomes, and fail with the collected reports exactly when no link
validated. -/
def validateAll (http : String → Except String PVal)
    (links : List (String × String)) :
    Except (List InvalidLinkReport) (List (String × String)) :=
  let results := links.map (fun nu => processLink http nu.1 nu.2)
  let valid := results.filterMap (fun r => match r with | .inl v => some v | .inr _ => none)
  let invalid := results.filterMap (fun r => match r with | .inl _ => none | .inr i => some i)
  if valid.isEmpty then .error invalid else .ok valid

/-! ### C8: the error-code table -/

/-- C8: the code-to-message mapping renders the fixed exact string for each of
the codes -2, -3, -4, -9, -11, -14, -16, -17, -18, and renders exactly
"Unknown error" for every code outside this table. -/
theorem error_map_exact_strings :
    _ERROR_MAP_get (-2) = "EARGS: Invalid arguments" ∧
    _ERROR_MAP_get (-3) = "EAGAIN: Try again (temporary)" ∧
    _ERROR_MAP_get (-4) = "ERATELIMIT: Rate limited" ∧
    _ERROR_MAP_get (-9) = "ENOENT: Folder/file not found (removed or never existed)" ∧
    _ERROR_MAP_get (-11) = "EACCESS: Access denied (permission revoked)" ∧
    _ERROR_MAP_get (-14) = "EKEY: Invalid decryption key" ∧
    _ERROR_MAP_get (-16) = "EBLOCKED: Access blocked/banned" ∧
    _ERROR_MAP_get (-17) = "EOVERQUOTA: Quota exceeded" ∧
    _ERROR_MAP_get (-18) = "ETEMPUNAVAIL: Temporarily unavailable" ∧
    ∀ code : ℤ, code ∉ ([-2, -3, -4, -9, -11, -14, -16, -17, -18] : List ℤ) →
      _ERROR_MAP_get code = "Unknown error" := by
  refine ⟨by decide, by decide, by decide, by decide, by decide, by decide, by decide,
    by decide, by decide, ?_⟩
  intro code hc
  simp only [List.mem_cons, List.not_mem_nil, or_false] at hc
  push_neg at hc
  obtain ⟨h2, h3, h4, h9, h11, h14, h16, h17, h18⟩ := hc
  simp only [_ERROR_MAP_get, if_neg h2, if_neg h3, if_neg h4, if_neg h9, if_neg h11,
    if_neg h14, if_neg h16, if_neg h17, if_neg h18]

/-! ### C2: classification of the listing-response body -/

/-- C2: `get_nodes` classifies the decoded JSON body exactly as the spec's ordered
enumeration prescribes — a bare integer body is that error code; an empty list is
-1; a first element that is a bare integer is that code; a first element that is
an object with an integer `e` field is that code; a first element containing `f`
succeeds with that value provided it is a list (otherwise -1); any other first
element is -1; any non-int non-list shape is -1. -/
theorem get_nodes_classifies_as_spec (payload : PVal) :
    (get_nodes_classify payload).mapError ApiError.errCode = fetchNodesClassify payload := by
  cases payload with
  | pint n => rfl
  | pbool b => rfl
  | pfloat => rfl
  | pnull => rfl
  | pstr s => rfl
  | pdict kvs => rfl
  | plist xs =>
    cases xs with
    | nil => rfl
    | cons first rest =>
      cases first with
      | pint n => rfl
      | pbool b => rfl
      | pfloat => rfl
      | pnull => rfl
      | pstr s => rfl
      | plist ys => rfl
      | pdict kvs =>
        have hpd : pvIsInt (PVal.pdict kvs) = false := rfl
        have hpl : pvIsInt (PVal.plist (PVal.pdict kvs :: rest)) = false := rfl
        simp only [get_nodes_classify, fetchNodesClassify, dictIntE, dictF, hpd, hpl,
          Bool.false_eq_true, if_false]
        cases he : pyDictGet kvs "e" with
        | none =>
          cases hf : pyDictGet kvs "f" with
          | none => simp [he, hf, hpl, ApiError.errCode, Except.mapError]
          | some v =>
            cases v <;> simp [he, hf, hpl, ApiError.errCode, Except.mapError]
        | some e =>
          cases hpe : pvIsInt e with
          | true => simp [he, hpe, hpl, ApiError.errCode, Except.mapError]
          | false =>
            cases hf : pyDictGet kvs "f" with
            | none => simp [he, hf, hpe, hpl, ApiError.errCode, Except.mapError]
            | some v =>
              cases v <;> simp [he, hf, hpe, hpl, ApiError.errCode, Except.mapError]

/-! ### C6: folder-URL parsing failure mode -/

/-- C6 (code bug): on a URL that matches neither folder-link pattern,
`parse_folder_url` raises `AttributeError` — line 87 formats `match.group(1)` while
`match` is `None` — instead of the `ValueError` ("Invalid MEGA folder URL")
that line 89 would raise and that the spec's `FormatError` corresponds to. -/
theorem parse_folder_url_invalid_raises_attribute_error :
    parse_folder_url "https://example.com/x" =
      Except.error (PyExc.attributeError "NoneType object has no attribute group") := by
  rfl

/-! ### C10: frame property of node decryption -/

/-- C10: whenever `decrypt_node` succeeds, the output's handle, parent handle and
type equal the input's `h`, `p` and `t`, and the size equals the input's `s` when
present and 0 when absent; key unwrapping and attribute decryption only influence
the `name` field. -/
theorem decrypt_node_frame (bd : List ℕ → List ℕ → List ℕ)
    (jl : List ℕ → Option (List (String × PVal))) (node : RawNode) (sk : List ℕ)
    (out : DecNode) (hsome : decrypt_node bd jl node sk = some out) :
    out.h = node.h ∧ out.p = node.p ∧ out.type = node.t ∧ out.size = node.s.getD 0 := by
  simp only [decrypt_node, bind, Option.bind_eq_bind, Option.pure_def] at hsome
  rw [Option.bind_eq_some] at hsome; obtain ⟨cipher, -, hsome⟩ := hsome
  rw [Option.bind_eq_some] at hsome; obtain ⟨key0, -, hsome⟩ := hsome
  split at hsome <;>
  · rw [Option.bind_eq_some] at hsome; obtain ⟨key, -, hsome⟩ := hsome
    rw [Option.bind_eq_some] at hsome; obtain ⟨ab, -, hsome⟩ := hsome
    rw [Option.bind_eq_some] at hsome; obtain ⟨attrs, -, hsome⟩ := hsome
    cases hsome
    exact ⟨rfl, rfl, rfl, rfl⟩

/-- Witness for C10 at a concrete input: a folder node with an all-`A` key field,
the identity block cipher and a constant JSON parser decrypts successfully, and the
frame equalities hold. -/
theorem decrypt_node_frame_witness :
    decrypt_node (fun _ b => b) (fun _ => some [("n", PVal.pstr "x")])
        ⟨"H", "P", 1, "AAAAAAAAAAAAAAAAAAAAAA", none, none⟩ [0, 0, 0, 0] =
      some ⟨"H", "P", some (PVal.pstr "x"), 1, 0⟩ ∧
    (⟨"H", "P", some (PVal.pstr "x"), 1, 0⟩ : DecNode).h =
      (⟨"H", "P", 1, "AAAAAAAAAAAAAAAAAAAAAA", none, none⟩ : RawNode).h ∧
    (⟨"H", "P", some (PVal.pstr "x"), 1, 0⟩ : DecNode).p =
      (⟨"H", "P", 1, "AAAAAAAAAAAAAAAAAAAAAA", none, none⟩ : RawNode).p ∧
    (⟨"H", "P", some (PVal.pstr "x"), 1, 0⟩ : DecNode).type =
      (⟨"H", "P", 1, "AAAAAAAAAAAAAAAAAAAAAA", none, none⟩ : RawNode).t ∧
    (⟨"H", "P", some (PVal.pstr "x"), 1, 0⟩ : DecNode).size =
      (⟨"H", "P", 1, "AAAAAAAAAAAAAAAAAAAAAA", none, none⟩ : RawNode).s.getD 0 :=
  ⟨rfl, decrypt_node_frame (fun _ b => b) (fun _ => some [("n", PVal.pstr "x")])
    ⟨"H", "P", 1, "AAAAAAAAAAAAAAAAAAAAAA", none, none⟩ [0, 0, 0, 0]
    ⟨"H", "P", some (PVal.pstr "x"), 1, 0⟩ rfl⟩

/-! ### C1: the node-key unwrap -/

/-- C1: for a node of type 0 (file) or 1 (folder) and a 4-word folder key,
`decrypt_node` derives the node key exactly as the spec's `unwrapNodeKey`
describes — split the key field on `:`, take the last segment, base64url-decode it
padding-tolerantly, interpret the bytes as big-endian 32-bit words, AES-ECB-decrypt
them with the folder key, and fold the 8-word result by `result[i] ^ result[i+4]`
for a file while using the result directly for a folder — and feeds that key to
attribute decryption, all other fields being copied. -/
theorem decrypt_node_uses_unwrapNodeKey (bd : List ℕ → List ℕ → List ℕ)
    (jl : List ℕ → Option (List (String × PVal))) (node : RawNode) (fk : List ℕ)
    (ht : node.t = 0 ∨ node.t = 1) (hfk : fk.length = 4) :
    decrypt_node bd jl node fk =
      (unwrapNodeKey bd node.k fk node.t).bind (fun key =>
        (base64_url_decode (node.a.getD "")).bind (fun ab =>
          (decrypt_attr bd jl ab key).bind (fun attrs =>
            some ⟨node.h, node.p, pyDictGet attrs "n", node.t, node.s.getD 0⟩))) := by
  clear ht hfk
  simp only [decrypt_node, unwrapNodeKey, base64_to_a32, decrypt_key, bind,
    Option.bind_eq_bind, Option.pure_def]
  cases hdec : base64_url_decode (String.mk ((pySplit ':' node.k.toList).getLastD [])) with
  | none => simp
  | some bytes =>
    simp only [Option.map_some', Option.some_bind]
    cases hfkb : wordsToBytes fk with
    | none => simp
    | some fkBytes =>
      simp only [Option.some_bind]
      cases hwb : wordsToBytes (bytesToWords bytes) with
      | none => simp
      | some wordBytes =>
        simp only [Option.some_bind]
        cases hecb : aesEcbDecrypt bd fkBytes wordBytes with
        | none => simp
        | some plain =>
          simp only [Option.some_bind]
          by_cases ht0 : node.t = 0
          · simp only [ht0, if_true, fold_file_key]
          · simp only [ht0, if_false, Option.some_bind]

/-- Witness for C1 at a concrete input: a folder node (type 1) with a 4-word
folder key. -/
theorem decrypt_node_uses_unwrapNodeKey_witness :
    ((⟨"h1", "p1", 1, "BBBBBBBBBBBBBBBBBBBBBB", none, some 7⟩ : RawNode).t = 0 ∨
      (⟨"h1", "p1", 1, "BBBBBBBBBBBBBBBBBBBBBB", none, some 7⟩ : RawNode).t = 1) ∧
    ([1, 2, 3, 4] : List ℕ).length = 4 ∧
    decrypt_node (fun _ b => b) (fun _ => none)
        ⟨"h1", "p1", 1, "BBBBBBBBBBBBBBBBBBBBBB", none, some 7⟩ [1, 2, 3, 4] =
      (unwrapNodeKey (fun _ b => b) "BBBBBBBBBBBBBBBBBBBBBB" [1, 2, 3, 4] 1).bind
        (fun key => (base64_url_decode "").bind (fun ab =>
          (decrypt_attr (fun _ b => b) (fun _ => none) ab key).bind (fun attrs =>
            some ⟨"h1", "p1", pyDictGet attrs "n", 1, 7⟩))) :=
  ⟨Or.inr rfl, rfl,
    decrypt_node_uses_unwrapNodeKey _ _ _ _ (Or.inr rfl) rfl⟩

/-! ### C5: attribute decryption -/

/-- C5: `decrypt_attr` implements the spec's `decryptAttributes` for any AES block
primitive and any JSON parser that rejects the empty string and the single
character `}` — AES-CBC with the all-zero 16-byte IV (never an IV from the data),
trailing-zero strip, tolerant text decode, the substring from the first `{` to the
last `}` inclusive, JSON parse; it fails when no object boundary is found (the
slice degenerates to `""` or `"}"`) or when parsing fails. -/
theorem decrypt_attr_refines (bd : List ℕ → List ℕ → List ℕ)
    (jl : List ℕ → Option (List (String × PVal))) (ab key ak : List ℕ)
    (hak : attr_aes_key key = some ak)
    (hj1 : jl [] = none) (hj2 : jl [125] = none) :
    decrypt_attr bd jl ab key = decryptAttributes bd jl ab ak := by
  simp only [decrypt_attr, decryptAttributes, bind, Option.bind_eq_bind, hak,
    Option.some_bind]
  cases hcbc : aesCbcDecrypt bd ak (List.replicate 16 0) ab with
  | none => simp
  | some dec =>
    simp only [Option.some_bind]
    set text := utf8DecodeIgnore (rstripZeros dec) with htext
    clear_value text
    simp only [pyFind, pyRfind, lastIdxOf]
    cases hf : text.findIdx? (fun x => x = 123) with
    | some i =>
      cases hr : text.reverse.findIdx? (fun x => x = 125) with
      | some ir =>
        simp only [Option.map_some']
        obtain ⟨hi, -, -⟩ := List.findIdx?_eq_some_iff_getElem.mp hf
        obtain ⟨hir, -, -⟩ := List.findIdx?_eq_some_iff_getElem.mp hr
        rw [List.length_reverse] at hir
        have hslice : pySlice text (↑i) ((↑text.length - 1 - ↑ir) + 1) =
            (text.take (text.length - 1 - ir + 1)).drop i := by
          have h1 : ((↑text.length : ℤ) - 1 - ↑ir) + 1 = ↑(text.length - 1 - ir + 1) := by
            omega
          simp only [pySlice, h1]
          have h2 : ¬ ((↑i : ℤ) < 0) := by omega
          have h3 : ¬ ((↑(text.length - 1 - ir + 1) : ℤ) < 0) := by omega
          simp only [h2, h3, if_false, Int.toNat_ofNat, Int.toNat_natCast]
          have h4 : min i text.length = i := by omega
          have h5 : min (text.length - 1 - ir + 1) text.length = text.length - 1 - ir + 1 := by
            omega
          rw [h4, h5]
        rw [hslice]
      | none =>
        simp only [Option.map_none']
        have hslice : pySlice text (↑i) ((-1) + 1) = [] := by
          simp [pySlice]
        rw [hslice, hj1]
    | none =>
      cases hr : text.reverse.findIdx? (fun x => x = 125) with
      | none =>
        simp only [Option.map_none']
        have hslice : pySlice text (-1) ((-1) + 1) = [] := by
          simp [pySlice]
        rw [hslice, hj1]
      | some ir =>
        simp only [Option.map_some']
        obtain ⟨hir, hp, -⟩ := List.findIdx?_eq_some_iff_getElem.mp hr
        have hlen : ir < text.length := by
          simpa using hir
        have hpos : 0 < text.length := by omega
        have hb : ((↑text.length : ℤ) - 1 - ↑ir) + 1 = ↑(text.length - ir) := by omega
        rw [hb]
        cases ir with
        | zero =>
          have h125 : text.reverse[0] = 125 := by simpa using hp
          rw [List.getElem_reverse] at h125
          simp only [Nat.sub_zero] at h125
          have hslice : pySlice text (-1) (↑(text.length - 0) : ℤ) = [125] := by
            simp only [pySlice, Nat.sub_zero]
            have h2 : (-1 : ℤ) < 0 := by norm_num
            have h3 : ¬ ((↑text.length : ℤ) < 0) := by omega
            simp only [h2, if_true, h3, if_false, Int.toNat_natCast]
            have h4 : ((↑text.length : ℤ) + -1).toNat = text.length - 1 := by omega
            have h5 : min text.length text.length = text.length := by omega
            rw [h4, h5, List.take_length,
              List.drop_eq_getElem_cons (by omega : text.length - 1 < text.length)]
            rw [List.drop_eq_nil_of_le (by omega : text.length ≤ text.length - 1 + 1)]
            rw [h125]
          rw [hslice, hj2]
        | succ k =>
          have hslice : pySlice text (-1) (↑(text.length - (k + 1)) : ℤ) = [] := by
            simp only [pySlice]
            have h2 : (-1 : ℤ) < 0 := by norm_num
            have h3 : ¬ ((↑(text.length - (k + 1)) : ℤ) < 0) := by omega
            simp only [h2, if_true, h3, if_false, Int.toNat_natCast]
            apply List.drop_eq_nil_of_le
            rw [List.length_take]
            omega
          rw [hslice, hj1]

/-- Witness for C5 at a concrete input: the zero key yields sixteen zero AES key
bytes, the constant-`none` parser rejects everything, and the refinement equality
holds at the empty blob. -/
theorem decrypt_attr_refines_witness :
    attr_aes_key [0, 0, 0, 0] =
      some [0, 0, 0, 0, 0, 0, 0, 0, 0, 0, 0, 0, 0, 0, 0, 0] ∧
    (fun _ : List ℕ => (none : Option (List (String × PVal)))) [] = none ∧
    (fun _ : List ℕ => (none : Option (List (String × PVal)))) [125] = none ∧
    decrypt_attr (fun _ b => b) (fun _ => none) [] [0, 0, 0, 0] =
      decryptAttributes (fun _ b => b) (fun _ => none) []
        [0, 0, 0, 0, 0, 0, 0, 0, 0, 0, 0, 0, 0, 0, 0, 0] :=
  ⟨rfl, rfl, rfl,
    decrypt_attr_refines (fun _ b => b) (fun _ => none) [] [0, 0, 0, 0]
      [0, 0, 0, 0, 0, 0, 0, 0, 0, 0, 0, 0, 0, 0, 0, 0] rfl rfl rfl⟩

/-! ### C7: link validation -/

/-- The `MEGA_LINK_*` entries of the environment, as `(name, url)` pairs. -/
def megaEntries (env : List (String × String)) : List (String × String) :=
  (env.filter (fun kv => kv.1.startsWith "MEGA_LINK_")).map
    (fun kv => (kv.1.drop "MEGA_LINK_".length, kv.2))

/-- The loop of `get_mega_links` with arbitrary accumulator contents equals the
independent per-link classification followed by partitioning. -/
theorem get_mega_links_go_spec (http : String → Except String PVal) :
    ∀ (env : List (String × String)) (valid : List (String × String))
      (invalid : List InvalidLinkReport),
      get_mega_links_go http env valid invalid =
        (let results := (megaEntries env).map (fun nu => processLink http nu.1 nu.2)
         let v := valid ++ results.filterMap
           (fun r => match r with | .inl x => some x | .inr _ => none)
         let inv := invalid ++ results.filterMap
           (fun r => match r with | .inl _ => none | .inr i => some i)
         if v.isEmpty then .error inv else .ok v)
  | [], valid, invalid => by
    simp [get_mega_links_go, megaEntries]
  | (key, url) :: env, valid, invalid => by
    by_cases hpre : key.startsWith "MEGA_LINK_"
    · have hme : megaEntries ((key, url) :: env) =
          (key.drop "MEGA_LINK_".length, url) :: megaEntries env := by
        simp [megaEntries, hpre]
      cases hproc : processLink http (key.drop "MEGA_LINK_".length) url with
      | inl v0 =>
        simp only [get_mega_links_go, hpre, if_true, hproc,
          get_mega_links_go_spec http env (valid ++ [v0]) invalid, hme,
          List.map_cons, List.filterMap_cons, List.append_assoc, List.singleton_append]
      | inr r0 =>
        simp only [get_mega_links_go, hpre, if_true, hproc,
          get_mega_links_go_spec http env valid (invalid ++ [r0]), hme,
          List.map_cons, List.filterMap_cons, List.append_assoc, List.singleton_append]
    · have hme : megaEntries ((key, url) :: env) = megaEntries env := by
        simp [megaEntries, hpre]
      simp only [get_mega_links_go, hpre,
        get_mega_links_go_spec http env valid invalid, hme]
      exact if_neg (by simp)

/-- C7: `get_mega_links` validates every configured link independently — each
failure (API error, transport error, format error, or any unexpected one) becomes
an `InvalidLinkReport` with code -1 for non-API failures and never stops the
remaining links from being processed — and raises `NoValidLinksError` carrying
exactly all collected reports precisely when no link validated. -/
theorem get_mega_links_validates_independently (http : String → Except String PVal)
    (env : List (String × String)) :
    get_mega_links http env = validateAll http (megaEntries env) := by
  rw [get_mega_links, get_mega_links_go_spec http env [] [], validateAll]
  simp

/-! ### Termination machinery for `build_paths` (C3, C4, C9)

The inner `resolve` recursion follows parent handles deterministically; under
acyclicity a chain of recursive calls visits pairwise-distinct handles of the
lookup, so fuel exceeding the number of distinct handles can never run out. -/

/-- A handle with a lookup entry is one of the listing's handles. -/
theorem mem_handles_of_lookupOf (nodes : List PNode) (a : String) (n : PNode)
    (hl : lookupOf nodes a = some n) : a ∈ nodes.map (fun m => m.h) := by
  have h1 := List.find?_some hl
  have h2 := List.mem_of_find?_eq_some hl
  rw [List.mem_reverse] at h2
  have h3 : n.h = a := by simpa using h1
  exact List.mem_map.mpr ⟨n, h2, h3⟩

/-- A `parentStep` comes from some listed node whose handle is the step's source. -/
theorem parentStep_elim (nodes : List PNode) (a b : String)
    (hstep : parentStep nodes a b) : ∃ n ∈ nodes, n.h = a ∧ b = n.p := by
  obtain ⟨n, hl, hb⟩ := hstep
  have h1 := List.find?_some hl
  have h2 := List.mem_of_find?_eq_some hl
  rw [List.mem_reverse] at h2
  exact ⟨n, h2, by simpa using h1, hb⟩

/-- A strictly decreasing rank along parent steps makes the parent relation
acyclic. -/
theorem acyclic_of_rank (nodes : List PNode) (rank : String → ℕ)
    (hr : ∀ a b, parentStep nodes a b → rank b < rank a) : Acyclic nodes := by
  intro h hcycle
  have hmono : ∀ a b, Relation.TransGen (parentStep nodes) a b → rank b < rank a := by
    intro a b htg
    induction htg with
    | single hstep => exact hr _ _ hstep
    | tail _ hstep ih => exact lt_trans (hr _ _ hstep) ih
  exact lt_irrefl _ (hmono _ _ hcycle)

/-- Consecutive parent steps along a chain compose to transitive reachability. -/
theorem chain_transGen (nodes : List PNode) (c : ℕ → String) (i j : ℕ)
    (hsteps : ∀ k, i ≤ k → k < j → parentStep nodes (c k) (c (k + 1)))
    (hij : i < j) : Relation.TransGen (parentStep nodes) (c i) (c j) := by
  induction j, hij using Nat.le_induction with
  | base => exact Relation.TransGen.single (hsteps i le_rfl (Nat.lt_succ_self i))
  | succ j hij ih =>
    exact Relation.TransGen.tail
      (ih (fun k hk1 hk2 => hsteps k hk1 (Nat.lt_succ_of_lt hk2)))
      (hsteps j (by omega) (Nat.lt_succ_self j))

/-- When `resolveF` exhausts its fuel, there is a chain of that many parent steps
through non-root handles of the lookup. -/
theorem chain_of_resolveF_none (nodes : List PNode) (root : String) :
    ∀ (fuel : ℕ) (h : String), resolveF nodes root fuel h = none →
      ∃ c : ℕ → String, c 0 = h ∧
        ∀ i < fuel, c i ≠ root ∧ ∃ n, lookupOf nodes (c i) = some n ∧ c (i + 1) = n.p
  | 0, h, _ => ⟨fun _ => h, rfl, by omega⟩
  | fuel + 1, h, hnone => by
    rw [resolveF] at hnone
    by_cases hroot : h = root
    · simp [hroot] at hnone
    · rw [if_neg hroot] at hnone
      cases hl : lookupOf nodes h with
      | none => simp [hl] at hnone
      | some n =>
        simp only [hl] at hnone
        cases hrec : resolveF nodes root fuel n.p with
        | some v => simp [hrec] at hnone
        | none =>
          obtain ⟨c, hc0, hcsteps⟩ := chain_of_resolveF_none nodes root fuel n.p hrec
          refine ⟨fun i => match i with | 0 => h | i + 1 => c i, rfl, ?_⟩
          intro i hi
          match i with
          | 0 => exact ⟨hroot, n, hl, hc0⟩
          | i + 1 =>
            obtain ⟨hr1, m, hm, hstep⟩ := hcsteps i (by omega)
            exact ⟨hr1, m, hm, hstep⟩

/-- Under acyclicity a chain of parent steps visits pairwise-distinct handles, so
its length is bounded by the number of distinct handles in the listing. -/
theorem chain_bound (nodes : List PNode) (root : String) (c : ℕ → String) (fuel : ℕ)
    (hchain : ∀ i < fuel,
      c i ≠ root ∧ ∃ n, lookupOf nodes (c i) = some n ∧ c (i + 1) = n.p)
    (hac : Acyclic nodes) : fuel ≤ ((nodes.map (fun m => m.h)).dedup).length := by
  classical
  have hcycle : ∀ i j, i < j → j < fuel → c i = c j → False := by
    intro i j hij hjf heq
    have htg : Relation.TransGen (parentStep nodes) (c i) (c j) := by
      apply chain_transGen nodes c i j ?_ hij
      intro k hk1 hk2
      obtain ⟨-, n, hl, hstep⟩ := hchain k (by omega)
      exact ⟨n, hl, hstep⟩
    rw [heq] at htg
    exact hac _ htg
  have hinj : Set.InjOn c ↑(Finset.range fuel) := by
    intro i hi j hj hij
    simp only [Finset.coe_range, Set.mem_Iio] at hi hj
    by_contra hne
    rcases Nat.lt_or_ge i j with hlt | hge
    · exact hcycle i j hlt hj hij
    · have hgt : j < i := by omega
      exact hcycle j i hgt hi hij.symm
  have hmaps : ∀ i ∈ Finset.range fuel, c i ∈ (nodes.map (fun m => m.h)).toFinset := by
    intro i hi
    obtain ⟨-, n, hl, -⟩ := hchain i (Finset.mem_range.mp hi)
    exact List.mem_toFinset.mpr (mem_handles_of_lookupOf _ _ _ hl)
  have hcard := Finset.card_le_card_of_injOn c hmaps hinj
  simpa [List.card_toFinset] using hcard

/-- More fuel never changes a successful resolution. -/
theorem resolveF_mono (nodes : List PNode) (root : String) :
    ∀ (fuel : ℕ) (h : String) (v : String), resolveF nodes root fuel h = some v →
      resolveF nodes root (fuel + 1) h = some v
  | 0, h, v, hsome => by simp [resolveF] at hsome
  | fuel + 1, h, v, hsome => by
    rw [resolveF] at hsome
    rw [resolveF]
    by_cases hroot : h = root
    · rw [if_pos hroot] at hsome ⊢
      exact hsome
    · rw [if_neg hroot] at hsome ⊢
      cases hl : lookupOf nodes h with
      | none => simp only [hl] at hsome ⊢; exact hsome
      | some n =>
        simp only [hl] at hsome ⊢
        cases hrec : resolveF nodes root fuel n.p with
        | none => simp [hrec] at hsome
        | some pp =>
          simp only [hrec] at hsome
          simp only [resolveF_mono nodes root fuel n.p pp hrec]
          exact hsome

/-- More fuel never changes a successful resolution (arbitrary increase). -/
theorem resolveF_mono_le (nodes : List PNode) (root : String) (fuel fuel' : ℕ)
    (h v : String) (hle : fuel ≤ fuel')
    (hsome : resolveF nodes root fuel h = some v) :
    resolveF nodes root fuel' h = some v := by
  induction fuel', hle using Nat.le_induction with
  | base => exact hsome
  | succ fuel' _ ih => exact resolveF_mono nodes root fuel' h v ih

/-- Fuel exceeding the number of distinct handles suffices on acyclic input. -/
theorem resolveF_isSome_of_acyclic (nodes : List PNode) (root : String)
    (hac : Acyclic nodes) (fuel : ℕ) (h : String)
    (hfuel : ((nodes.map (fun m => m.h)).dedup).length < fuel) :
    (resolveF nodes root fuel h).isSome := by
  by_contra hnone
  rw [Option.not_isSome_iff_eq_none] at hnone
  obtain ⟨c, -, hchain⟩ := chain_of_resolveF_none nodes root fuel h hnone
  have := chain_bound nodes root c fuel hchain hac
  omega

/-- When resolution starts one parent step below a non-root handle of the lookup,
fuel equal to the number of distinct handles already suffices on acyclic input. -/
theorem resolveF_isSome_of_acyclic_parent (nodes : List PNode) (root : String)
    (hac : Acyclic nodes) (a h : String) (hstep : parentStep nodes a h)
    (haroot : a ≠ root) (fuel : ℕ)
    (hfuel : ((nodes.map (fun m => m.h)).dedup).length ≤ fuel) :
    (resolveF nodes root fuel h).isSome := by
  by_contra hnone
  rw [Option.not_isSome_iff_eq_none] at hnone
  obtain ⟨c, hc0, hchain⟩ := chain_of_resolveF_none nodes root fuel h hnone
  have hchain' : ∀ i < fuel + 1,
      (fun i => match i with | 0 => a | i + 1 => c i) i ≠ root ∧
      ∃ n, lookupOf nodes ((fun i => match i with | 0 => a | i + 1 => c i) i) = some n ∧
        (fun i => match i with | 0 => a | i + 1 => c i) (i + 1) = n.p := by
    intro i hi
    match i with
    | 0 =>
      obtain ⟨n, hl, hb⟩ := hstep
      exact ⟨haroot, n, hl, by show c 0 = n.p; rw [hc0]; exact hb⟩
    | i + 1 =>
      obtain ⟨hr1, m, hm, hstepi⟩ := hchain i (by omega)
      exact ⟨hr1, m, hm, hstepi⟩
  have := chain_bound nodes root _ (fuel + 1) hchain' hac
  omega

/-- With pairwise-distinct handles, `find?` by handle returns the node itself. -/
theorem find?_handle_self : ∀ (l : List PNode) (n : PNode),
    (l.map (fun m => m.h)).Nodup → n ∈ l →
    l.find? (fun m => m.h == n.h) = some n
  | [], n, _, hn => absurd hn (List.not_mem_nil n)
  | m :: l, n, hnd, hn => by
    rw [List.map_cons, List.nodup_cons] at hnd
    rw [List.find?_cons]
    rcases List.mem_cons.mp hn with heq | hmem
    · subst heq
      simp
    · cases hbeq : (m.h == n.h) with
      | true =>
        have hin : n.h ∈ l.map (fun m => m.h) := List.mem_map.mpr ⟨n, hmem, rfl⟩
        have hme : m.h = n.h := by simpa using hbeq
        exact absurd (hme ▸ hin) hnd.1
      | false =>
        exact find?_handle_self l n hnd.2 hmem

/-- With distinct handles the lookup of a listed node's handle is the node itself. -/
theorem lookupOf_self (nodes : List PNode) (hnd : (nodes.map (fun m => m.h)).Nodup)
    (n : PNode) (hn : n ∈ nodes) : lookupOf nodes n.h = some n := by
  apply find?_handle_self
  · rw [List.map_reverse]
    exact List.nodup_reverse.mpr hnd
  · exact List.mem_reverse.mpr hn

/-- A `mapM` over `Option` whose entries all succeed returns the mapped list. -/
theorem mapM_eq_some_map {α β : Type} (f : α → Option β) (g : α → β) :
    ∀ l : List α, (∀ a ∈ l, f a = some (g a)) → l.mapM f = some (l.map g)
  | [], _ => rfl
  | a :: l, hall => by
    have ha := hall a (List.mem_cons_self a l)
    have hrest := mapM_eq_some_map f g l (fun b hb => hall b (List.mem_cons_of_mem a hb))
    rw [List.mapM_cons, ha, hrest]
    rfl

/-- A filtered map equals a `filterMap` when they agree entrywise. -/
theorem filter_map_eq_filterMap {α β γ : Type} (gg : α → β) (p : β → Bool)
    (e : β → γ) (q : α → Option γ) :
    ∀ l : List α,
      (∀ a ∈ l, (if p (gg a) then some (e (gg a)) else none) = q a) →
      ((l.map gg).filter p).map e = l.filterMap q
  | [], _ => rfl
  | a :: l, hall => by
    have ha := hall a (List.mem_cons_self a l)
    have hrest := filter_map_eq_filterMap gg p e q l
      (fun b hb => hall b (List.mem_cons_of_mem a hb))
    simp only [List.map_cons, List.filter_cons, List.filterMap_cons]
    cases hp : p (gg a) with
    | true =>
      rw [hp] at ha
      simp only [if_true] at ha
      rw [← ha]
      simp [hrest]
    | false =>
      rw [hp] at ha
      simp only [Bool.false_eq_true, if_false] at ha
      rw [← ha]
      simp [hrest]

/-- Distinct handles are at most as many as nodes. -/
theorem dedup_handles_le (nodes : List PNode) :
    ((nodes.map (fun m => m.h)).dedup).length ≤ nodes.length := by
  have h1 := (List.dedup_sublist (nodes.map (fun m => m.h))).length_le
  simpa using h1

/-- On acyclic input, `build_paths` returns the filtered list of entries built
from each node's resolved path. -/
theorem build_paths_eq_of_acyclic (nodes : List PNode) (root : String)
    (hac : Acyclic nodes) :
    build_paths nodes root =
      some (((nodes.map (fun n => (n, resolvePath nodes root n.h))).filter
        (fun np => np.2 ≠ "")).map
          (fun np => ⟨np.1.h, np.2, np.1.type, np.1.size⟩)) := by
  have hdedup : ((nodes.map (fun m => m.h)).dedup).length < nodes.length + 1 := by
    have := dedup_handles_le nodes
    omega
  have hmapM : nodes.mapM (fun n =>
      (resolveF nodes root (nodes.length + 1) n.h).map (fun path => (n, path))) =
      some (nodes.map (fun n => (n, resolvePath nodes root n.h))) := by
    apply mapM_eq_some_map
    intro n hn
    obtain ⟨v, hv⟩ := Option.isSome_iff_exists.mp
      (resolveF_isSome_of_acyclic nodes root hac (nodes.length + 1) n.h hdedup)
    rw [hv]
    simp [resolvePath, hv]
  rw [build_paths, hmapM]
  rfl

/-! ### C9: termination of path building -/

/-- C9: when no handle is reachable from itself by repeatedly following parent
handles within the lookup, `build_paths` terminates (the fuelled recursion never
runs out); the recursion itself has no cycle guard, so acyclicity is the
precondition that makes it well-founded. -/
theorem build_paths_terminates_of_acyclic (nodes : List PNode) (root : String)
    (hac : Acyclic nodes) : (build_paths nodes root).isSome := by
  rw [build_paths_eq_of_acyclic nodes root hac]
  rfl

/-- Witness for C9 at a concrete input: a single node below an absent root parent
is acyclic (ranked by node depth) and its path building terminates. -/
theorem build_paths_terminates_of_acyclic_witness :
    Acyclic [⟨"C", "R2", "c", 1, 1⟩] ∧
    (build_paths [⟨"C", "R2", "c", 1, 1⟩] "R2").isSome := by
  have hac : Acyclic [⟨"C", "R2", "c", 1, 1⟩] := by
    apply acyclic_of_rank _ (fun s => if s = "C" then 1 else 0)
    intro a b hstep
    obtain ⟨n, hn, hha, hbp⟩ := parentStep_elim _ _ _ hstep
    rcases List.mem_singleton.mp hn with rfl
    subst hha
    subst hbp
    decide
  exact ⟨hac, build_paths_terminates_of_acyclic _ _ hac⟩

/-! ### C3: characterization of the `build_paths` output -/

/-- Counterexample to C3 as stated: a non-root node with an empty name resolves to
the empty path and is excluded from the output, so exclusion is not limited to the
root node. -/
theorem build_paths_excludes_empty_named_node :
    build_paths [⟨"A", "R", "", 0, 0⟩] "R" = some [] := by rfl

/-- C3 (amended): on a listing with pairwise-distinct handles, non-empty names and
an acyclic parent relation, `build_paths` resolves each node's path by the claimed
rule — empty exactly at the root handle or a handle absent from the lookup,
otherwise the parent's path, `/`, and the node's own name (or just the name when
the parent path is empty) — and the output consists of exactly the non-root nodes
with their resolved paths. -/
theorem build_paths_output_characterization (nodes : List PNode) (root : String)
    (hnd : (nodes.map (fun m => m.h)).Nodup)
    (hnames : ∀ n ∈ nodes, n.name ≠ "")
    (hac : Acyclic nodes) :
    build_paths nodes root =
      some (nodes.filterMap (fun n =>
        if n.h = root then none
        else some ⟨n.h, resolvePath nodes root n.h, n.type, n.size⟩)) ∧
    (∀ h, h = root ∨ lookupOf nodes h = none → resolvePath nodes root h = "") ∧
    (∀ n ∈ nodes, n.h ≠ root →
      resolvePath nodes root n.h =
        if resolvePath nodes root n.p = "" then n.name
        else resolvePath nodes root n.p ++ "/" ++ n.name) := by
  have hempty : ∀ h, h = root ∨ lookupOf nodes h = none →
      resolvePath nodes root h = "" := by
    intro h hcase
    rw [resolvePath, resolveF]
    rcases hcase with hr | hl
    · rw [if_pos hr]; rfl
    · by_cases hr : h = root
      · rw [if_pos hr]; rfl
      · rw [if_neg hr]; simp [hl]
  have hrule : ∀ n ∈ nodes, n.h ≠ root →
      resolvePath nodes root n.h =
        if resolvePath nodes root n.p = "" then n.name
        else resolvePath nodes root n.p ++ "/" ++ n.name := by
    intro n hn hroot
    have hlook := lookupOf_self nodes hnd n hn
    have hstep : parentStep nodes n.h n.p := ⟨n, hlook, rfl⟩
    obtain ⟨pp, hpp⟩ := Option.isSome_iff_exists.mp
      (resolveF_isSome_of_acyclic_parent nodes root hac n.h n.p hstep hroot
        nodes.length (dedup_handles_le nodes))
    have hup := resolveF_mono nodes root nodes.length n.p pp hpp
    rw [resolvePath, resolveF, if_neg hroot]
    simp only [hlook, hpp, Option.map_some']
    rw [resolvePath, hup]
    rfl
  refine ⟨?_, hempty, hrule⟩
  rw [build_paths_eq_of_acyclic nodes root hac]
  congr 1
  apply filter_map_eq_filterMap
  intro n hn
  by_cases hroot : n.h = root
  · rw [if_pos hroot]
    have hz : resolvePath nodes root n.h = "" := hempty n.h (Or.inl hroot)
    simp [hz]
  · rw [if_neg hroot]
    have hne : resolvePath nodes root n.h ≠ "" := by
      rw [hrule n hn hroot]
      by_cases hpp : resolvePath nodes root n.p = ""
      · rw [if_pos hpp]
        exact hnames n hn
      · rw [if_neg hpp]
        intro heq
        have hlen := congrArg String.length heq
        rw [String.length_append, String.length_append] at hlen
        have h1 : ("/" : String).length = 1 := rfl
        have h2 : ("" : String).length = 0 := rfl
        omega
    simp [hne]

/-- Witness for C3 (amended) at a concrete input: the listing root → A(folder) →
B(file) has distinct handles, non-empty names and an acyclic parent relation, and
the characterization holds. -/
theorem build_paths_output_characterization_witness :
    (([⟨"A", "R", "a", 1, 0⟩, ⟨"B", "A", "b", 0, 5⟩] : List PNode).map
      (fun m => m.h)).Nodup ∧
    (∀ n ∈ ([⟨"A", "R", "a", 1, 0⟩, ⟨"B", "A", "b", 0, 5⟩] : List PNode),
      n.name ≠ "") ∧
    Acyclic [⟨"A", "R", "a", 1, 0⟩, ⟨"B", "A", "b", 0, 5⟩] ∧
    (build_paths [⟨"A", "R", "a", 1, 0⟩, ⟨"B", "A", "b", 0, 5⟩] "R" =
      some (([⟨"A", "R", "a", 1, 0⟩, ⟨"B", "A", "b", 0, 5⟩] : List PNode).filterMap
        (fun n => if n.h = "R" then none
          else some ⟨n.h,
            resolvePath [⟨"A", "R", "a", 1, 0⟩, ⟨"B", "A", "b", 0, 5⟩] "R" n.h,
            n.type, n.size⟩)) ∧
    (∀ h, h = "R" ∨ lookupOf [⟨"A", "R", "a", 1, 0⟩, ⟨"B", "A", "b", 0, 5⟩] h = none →
      resolvePath [⟨"A", "R", "a", 1, 0⟩, ⟨"B", "A", "b", 0, 5⟩] "R" h = "") ∧
    (∀ n ∈ ([⟨"A", "R", "a", 1, 0⟩, ⟨"B", "A", "b", 0, 5⟩] : List PNode), n.h ≠ "R" →
      resolvePath [⟨"A", "R", "a", 1, 0⟩, ⟨"B", "A", "b", 0, 5⟩] "R" n.h =
        if resolvePath [⟨"A", "R", "a", 1, 0⟩, ⟨"B", "A", "b", 0, 5⟩] "R" n.p = ""
        then n.name
        else resolvePath [⟨"A", "R", "a", 1, 0⟩, ⟨"B", "A", "b", 0, 5⟩] "R" n.p ++
          "/" ++ n.name)) := by
  have hac : Acyclic [⟨"A", "R", "a", 1, 0⟩, ⟨"B", "A", "b", 0, 5⟩] := by
    apply acyclic_of_rank _ (fun s => if s = "B" then 2 else if s = "A" then 1 else 0)
    intro a b hstep
    obtain ⟨n, hn, hha, hbp⟩ := parentStep_elim _ _ _ hstep
    rcases List.mem_cons.mp hn with rfl | hn2
    · subst hha; subst hbp; decide
    · rcases List.mem_singleton.mp hn2 with rfl
      subst hha; subst hbp; decide
  exact ⟨by decide, by decide, hac,
    build_paths_output_characterization _ _ (by decide) (by decide) hac⟩

/-! ### C4: orphan nodes -/

/-- Counterexample to C4 as stated: an orphan node (parent handle absent from the
listing, own handle distinct from the root) whose name is empty resolves to the
empty path and is therefore excluded from the output. -/
theorem orphan_with_empty_name_excluded :
    build_paths [⟨"X", "Q", "", 0, 3⟩] "R" = some [] := by rfl

/-- C4 (amended): on a listing with pairwise-distinct handles and an acyclic
parent relation, a node whose parent handle is absent from the lookup and whose
own handle is not the root resolves — without error — to a path equal to exactly
its own name, and is not excluded from the output provided its name is non-empty. -/
theorem orphan_node_resolves_to_own_name (nodes : List PNode) (root : String)
    (hnd : (nodes.map (fun m => m.h)).Nodup) (hac : Acyclic nodes)
    (n : PNode) (hn : n ∈ nodes) (hroot : n.h ≠ root)
    (horph : lookupOf nodes n.p = none) (hname : n.name ≠ "") :
    resolvePath nodes root n.h = n.name ∧
    ∃ out, build_paths nodes root = some out ∧
      (⟨n.h, n.name, n.type, n.size⟩ : PathEntry) ∈ out := by
  have hlook := lookupOf_self nodes hnd n hn
  have hpath : resolvePath nodes root n.h = n.name := by
    rw [resolvePath, resolveF, if_neg hroot]
    simp only [hlook]
    obtain ⟨L, hL⟩ : ∃ L, nodes.length = L + 1 :=
      ⟨nodes.length - 1, by
        have := List.length_pos.mpr (List.ne_nil_of_mem hn); omega⟩
    rw [hL, resolveF]
    by_cases hpr : n.p = root
    · rw [if_pos hpr]; rfl
    · rw [if_neg hpr]; simp [horph]
  refine ⟨hpath, _, build_paths_eq_of_acyclic nodes root hac, ?_⟩
  apply List.mem_map.mpr
  refine ⟨(n, resolvePath nodes root n.h), ?_, by simp [hpath]⟩
  apply List.mem_filter.mpr
  exact ⟨List.mem_map.mpr ⟨n, hn, rfl⟩, by simp [hpath, hname]⟩

/-- Witness for C4 (amended) at a concrete input: a single orphan node with a
non-empty name resolves to its own name and appears in the output. -/
theorem orphan_node_resolves_to_own_name_witness :
    (([⟨"X", "Q", "x", 0, 3⟩] : List PNode).map (fun m => m.h)).Nodup ∧
    Acyclic [⟨"X", "Q", "x", 0, 3⟩] ∧
    (⟨"X", "Q", "x", 0, 3⟩ : PNode) ∈ ([⟨"X", "Q", "x", 0, 3⟩] : List PNode) ∧
    ("X" : String) ≠ "R" ∧
    lookupOf [⟨"X", "Q", "x", 0, 3⟩] "Q" = none ∧
    ("x" : String) ≠ "" ∧
    (resolvePath [⟨"X", "Q", "x", 0, 3⟩] "R" "X" = "x" ∧
      ∃ out, build_paths [⟨"X", "Q", "x", 0, 3⟩] "R" = some out ∧
        (⟨"X", "x", 0, 3⟩ : PathEntry) ∈ out) := by
  have hac : Acyclic [⟨"X", "Q", "x", 0, 3⟩] := by
    apply acyclic_of_rank _ (fun s => if s = "X" then 1 else 0)
    intro a b hstep
    obtain ⟨n, hn, hha, hbp⟩ := parentStep_elim _ _ _ hstep
    rcases List.mem_singleton.mp hn with rfl
    subst hha; subst hbp; decide
  exact ⟨by decide, hac, by decide, by decide, rfl, by decide,
    orphan_node_resolves_to_own_name [⟨"X", "Q", "x", 0, 3⟩] "R" (by decide) hac
      ⟨"X", "Q", "x", 0, 3⟩ (by decide) (by decide) rfl (by decide)⟩

end MegaMonitor
